import Mathlib

/-!
Shallow embedding of the memoria indexing pipeline and hybrid search engine
(repository IgorCandido/memoria), with proofs of the specification claims
about chunking, progress tracking, vector-store writes and search.

Modelling conventions: Python strings are `String`/`List Char`, Python floats
are `ℚ` (the algorithms only add, multiply, divide, clamp and compare scores),
Python lists are `List`, Python dicts are insertion-ordered association lists,
and a raised exception is an `Except.error` (or, for code paths that cannot
raise, the absence of an error constructor altogether).
-/

namespace Memoria

/-- A chunk produced by `DocumentProcessorAdapter.chunk_text`
(`memoria/domain/entities.py`): a contiguous character span `[start_pos, end_pos)`
of the source text.  `chunk_text` always passes an empty metadata dict. -/
structure Chunk where
  text : List Char
  start_pos : ℕ
  end_pos : ℕ
  metadata : List (String × String) := []
  deriving DecidableEq, Repr

/-- Python `str.isspace` restricted to one ASCII character (the guard
`text[end].isspace()` in `chunk_text`; the inputs in this development are
ASCII). -/
def pyIsSpace (c : Char) : Bool :=
  c = ' ' || c = '\t' || c = '\n' || c = '\r' || c = '\x0b' || c = '\x0c'

/-- Python `text.rfind(" ", start, stop)`: the greatest index `i` with
`start ≤ i < stop` and `text[i] = ' '`; `none` models the `-1` "not found"
result.  The recursion scans downward from `stop - 1`. -/
def rfindSpace (text : List Char) (start : ℕ) : ℕ → Option ℕ
  | 0 => none
  | stop + 1 =>
    if stop < start then none
    else if text.getD stop 'x' = ' ' then some stop
    else rfindSpace text start stop

/-- The chunk end for the loop iteration at `start` in
`DocumentProcessorAdapter.chunk_text`: `end1` is
`min(start + chunk_size, len(text))`; when `end1` lands mid-word before the
end of the text, the end is moved back to the nearest space found strictly
after `start`, if any (`text.rfind(" ", start, end)` followed by the
`space_pos > start` check). -/
def chunkEnd (text : List Char) (chunk_size start : ℕ) : ℕ :=
  let end1 := min (start + chunk_size) text.length
  if end1 < text.length && !(pyIsSpace (text.getD end1 ' ')) then
    match rfindSpace text start end1 with
    | some p => if start < p then p else end1
    | none => end1
  else end1

/-- The advance `start = end - overlap`, forced to `start + 1` whenever that
would not strictly progress (`next_start <= start` in the source). -/
def nextStart (overlap : ℤ) (start finish : ℕ) : ℕ :=
  if (finish : ℤ) - overlap ≤ (start : ℤ) then start + 1
  else ((finish : ℤ) - overlap).toNat

/-- The `while start < len(text)` loop of
`DocumentProcessorAdapter.chunk_text` (`document_processor_adapter.py`,
lines 155-191), translated step for step: the chunk `[start, end)` is
emitted only when its text is non-empty, and the loop advances to
`nextStart`.  The extra `fuel` argument only bounds the number of loop
iterations so the recursion is structural; since every iteration increases
`start` by at least one, `text.length` iterations always suffice, which
`chunkLoopF_fuel_irrelevant` below makes precise (this is exactly the
source's forced-progress termination argument). -/
def chunkLoopF (text : List Char) (chunk_size : ℕ) (overlap : ℤ) : ℕ → ℕ → List Chunk
  | _, 0 => []
  | start, fuel + 1 =>
    if start < text.length then
      let finish := chunkEnd text chunk_size start
      let ctext := (text.drop start).take (finish - start)
      if ctext = [] then
        chunkLoopF text chunk_size overlap (nextStart overlap start finish) fuel
      else
        Chunk.mk ctext start finish [] ::
          chunkLoopF text chunk_size overlap (nextStart overlap start finish) fuel
    else []

/-- `DocumentProcessorAdapter.chunk_text(text, chunk_size, overlap)`:
empty text yields `[]`, otherwise the chunking loop runs from `start = 0`.
Faithful to the source, no validation of `chunk_size` or `overlap` is
performed (the adapter has none; `chunk_size` is taken as a natural number
and `overlap` as an arbitrary integer, which covers every input exercised
in this development without triggering Python's negative-index slicing). -/
def chunk_text (text : List Char) (chunk_size : ℕ) (overlap : ℤ) : List Chunk :=
  if text = [] then [] else chunkLoopF text chunk_size overlap 0 text.length

/-- `memoria.domain.entities.Document`: id, content, string-keyed metadata
and an optional embedding vector. -/
structure Document where
  id : String
  content : String
  metadata : List (String × String) := []
  embedding : Option (List ℚ) := none
  deriving DecidableEq, Repr

/-- `memoria.domain.entities.SearchResult`: a document paired with a
relevance score and its 0-based rank in the current ordering. -/
structure SearchResult where
  document : Document
  score : ℚ
  rank : ℕ
  deriving DecidableEq, Repr

/-- The constructor validation `SearchResult.__post_init__` accepts exactly
these values (`entities.py` lines 49-54). -/
def SearchResult.Valid (r : SearchResult) : Prop :=
  0 ≤ r.score ∧ r.score ≤ 1

/-- `memoria.domain.entities.ProgressTracker`: mutable counters for one
indexing run.  The wall-clock fields `start_time`/`end_time` are omitted
(they only feed `elapsed_seconds`/`docs_per_minute`, which no claim here
is about). -/
structure ProgressTracker where
  total_documents : ℕ
  processed_documents : ℕ
  failed_documents : ℕ
  failed_files : List (String × String)
  current_document : String
  deriving DecidableEq, Repr

/-- `ProgressTracker.__init__(total_documents)`: all counters start at 0. -/
def ProgressTracker.init (total : ℕ) : ProgressTracker :=
  { total_documents := total, processed_documents := 0, failed_documents := 0
    failed_files := [], current_document := "" }

/-- `ProgressTracker.is_complete`:
`(processed_documents + failed_documents) >= total_documents`. -/
def ProgressTracker.is_complete (t : ProgressTracker) : Bool :=
  t.total_documents ≤ t.processed_documents + t.failed_documents

/-- `ProgressTracker.success_count`: `processed_documents - failed_documents`
(as a Python int, hence `ℤ`). -/
def ProgressTracker.success_count (t : ProgressTracker) : ℤ :=
  (t.processed_documents : ℤ) - (t.failed_documents : ℤ)

/-- `ProgressTracker.mark_processed(filename)`. -/
def ProgressTracker.mark_processed (t : ProgressTracker) (filename : String) :
    ProgressTracker :=
  { t with processed_documents := t.processed_documents + 1
           current_document := filename }

/-- `ProgressTracker.mark_failed(filename, error)`: note that the source
increments `processed_documents` as well as `failed_documents` (and the
repository's own test `test_tracker_basic_flow` asserts exactly that). -/
def ProgressTracker.mark_failed (t : ProgressTracker) (filename : String)
    (error : String) : ProgressTracker :=
  { t with processed_documents := t.processed_documents + 1
           failed_documents := t.failed_documents + 1
           failed_files := t.failed_files ++ [(filename, error)]
           current_document := filename }

/-- One driving step of the indexing pipeline on its tracker: the pipeline
calls `mark_processed` exactly once per succeeded source and `mark_failed`
exactly once per failed source. -/
inductive SourceEvent where
  | success (name : String)
  | failure (name : String) (err : String)
  deriving DecidableEq, Repr

/-- Apply one pipeline tracker event. -/
def applyEvent (t : ProgressTracker) : SourceEvent → ProgressTracker
  | .success n => t.mark_processed n
  | .failure n e => t.mark_failed n e

/-- Drive a tracker through a sequence of per-source events, in order. -/
def runEvents (t : ProgressTracker) (evs : List SourceEvent) : ProgressTracker :=
  evs.foldl applyEvent t

/-- Number of succeeded sources in an event sequence. -/
def countSuccess : List SourceEvent → ℕ
  | [] => 0
  | .success _ :: evs => countSuccess evs + 1
  | .failure _ _ :: evs => countSuccess evs

/-- Number of failed sources in an event sequence. -/
def countFailure : List SourceEvent → ℕ
  | [] => 0
  | .success _ :: evs => countFailure evs
  | .failure _ _ :: evs => countFailure evs + 1

/-- One document source as the pipeline in `skill_helpers.index_documents`
sees it: its file name together with the outcome of
`doc_processor.process_document` — either the list of chunk documents
(without embeddings) or the message of the exception the extraction or
chunking raised. -/
structure Source where
  name : String
  result : Except String (List Document)
  deriving Repr

/-- Attach an embedding to one pending chunk document, as the zip loop in
`skill_helpers._embed_and_commit_batch` does; `embed` stands for the
external batch-embedding port applied to one text. -/
def embedDoc (embed : String → List ℚ) (d : Document) : Document :=
  { d with embedding := some (embed d.content) }

/-- `skill_helpers._embed_and_commit_batch(chunks, ...)`: empty input commits
nothing; otherwise the batch is embedded and added to the vector store and
its size is returned, unless the flush fails (`flushOk` models the
try/except around the embed-and-add: a failed flush commits nothing and
reports 0).  Returns the new store contents and the committed count. -/
def embedAndCommitBatch (embed : String → List ℚ) (flushOk : List Document → Bool)
    (store : List Document) (chunks : List Document) : List Document × ℕ :=
  if chunks = [] then (store, 0)
  else if flushOk chunks then (store ++ chunks.map (embedDoc embed), chunks.length)
  else (store, 0)

/-- The in-flight state of one `index_documents` run: the tracker, the
pending (not yet committed) chunk buffer, the vector store contents, and
`total_chunks_committed`. -/
structure IndexState where
  tracker : ProgressTracker
  pending : List Document
  store : List Document
  committed : ℕ
  deriving DecidableEq, Repr

/-- One iteration of the source loop in `skill_helpers.index_documents`
(lines 287-313): set `current_document`, try to process the source; on
success extend the pending buffer, `mark_processed`, and flush when the
buffer has reached `commitBatchSize`; on failure `mark_failed` and continue
(the `continue` also skips the flush check for that iteration). -/
def indexStep (embed : String → List ℚ) (flushOk : List Document → Bool)
    (commitBatchSize : ℕ) (st : IndexState) (src : Source) : IndexState :=
  let t0 := { st.tracker with current_document := src.name }
  match src.result with
  | .error e =>
      { st with tracker := t0.mark_failed src.name e }
  | .ok docs =>
      let pending := st.pending ++ docs
      let tracker := t0.mark_processed src.name
      if commitBatchSize ≤ pending.length then
        let flushed := embedAndCommitBatch embed flushOk st.store pending
        { tracker := tracker, pending := [], store := flushed.1
          committed := st.committed + flushed.2 }
      else
        { st with tracker := tracker, pending := pending }

/-- `skill_helpers.index_documents` over an already-listed document set:
initialize the tracker with the source count, run the source loop, then
flush the remaining pending chunks.  (`tracker.finish()` only stamps the
end time, which is not modelled.) -/
def index_documents (embed : String → List ℚ) (flushOk : List Document → Bool)
    (commitBatchSize : ℕ) (sources : List Source) : IndexState :=
  let st0 : IndexState :=
    { tracker := ProgressTracker.init sources.length, pending := []
      store := [], committed := 0 }
  let st1 := sources.foldl (indexStep embed flushOk commitBatchSize) st0
  if st1.pending = [] then st1
  else
    let flushed := embedAndCommitBatch embed flushOk st1.store st1.pending
    { st1 with pending := [], store := flushed.1
               committed := st1.committed + flushed.2 }

/-- The chunk documents a source contributes when it succeeds (its
`process_document` result), `[]` when it fails. -/
def Source.okDocs (s : Source) : List Document :=
  match s.result with
  | .ok docs => docs
  | .error _ => []

/-- The validation loop at the top of `ChromaDBAdapter.add_documents`
(`chromadb_adapter.py` lines 95-98): the first document whose embedding is
`None`, scanning left to right, or `none` when every document carries an
embedding. -/
def firstMissingEmbedding : List Document → Option Document
  | [] => none
  | d :: ds => if d.embedding = none then some d else firstMissingEmbedding ds

/-- The batched `collection.add` loop of `ChromaDBAdapter.add_documents`:
documents are appended to the collection in slices of `BATCH_SIZE = 5000`,
in order. -/
def addBatches (store : List Document) (docs : List Document) : List Document :=
  match docs with
  | [] => store
  | d :: ds => addBatches (store ++ (d :: ds).take 5000) ((d :: ds).drop 5000)
termination_by docs.length
decreasing_by
  simp only [List.length_drop, List.length_cons]
  omega

/-- `ChromaDBAdapter.add_documents(docs)`: an empty list returns immediately;
otherwise every document is validated to carry an embedding before the
first write, and only then are the batches added.  A `ValueError` is the
`Except.error` case, in which the store is untouched. -/
def add_documents (store : List Document) (docs : List Document) :
    Except String (List Document) :=
  if docs = [] then .ok store
  else
    match firstMissingEmbedding docs with
    | some d => .error ("Document " ++ d.id ++ " missing embedding")
    | none => .ok (addBatches store docs)

/-- One raw hit of a ChromaDB `collection.query` response, as
`ChromaDBAdapter.search` reads it out: id, stored document text, metadata,
optional stored embedding, and the cosine distance. -/
structure RawHit where
  id : String
  content : String
  metadata : List (String × String) := []
  embedding : Option (List ℚ) := none
  distance : ℚ
  deriving DecidableEq, Repr

/-- `max(0.0, min(1.0, x))`. -/
def clamp01 (x : ℚ) : ℚ := max 0 (min 1 x)

/-- Python `enumerate` composed with the `SearchResult(document=..., score=...,
rank=i)` construction that ends `ChromaDBAdapter.search`, `_bm25_search`,
`_hybrid_search` and `rerank`: stamp each (document, score) pair with its
position as its rank, counting from `i`. -/
def withRanksFrom (i : ℕ) : List (Document × ℚ) → List SearchResult
  | [] => []
  | p :: rest => SearchResult.mk p.1 p.2 i :: withRanksFrom (i + 1) rest

/-- `enumerate` from 0, as in all the search-result constructions. -/
def withRanks (l : List (Document × ℚ)) : List SearchResult := withRanksFrom 0 l

/-- `ChromaDBAdapter.search` (`chromadb_adapter.py` lines 127-191) on an
already-computed query response: each hit is converted to a `SearchResult`
with `similarity = max(0.0, min(1.0, 1.0 - distance / 2.0))` and
`rank = i`, in response order.  The query embedding and the collection's
nearest-neighbour computation are external; `hits` is their output. -/
def chroma_search (hits : List RawHit) : List SearchResult :=
  withRanks (hits.map (fun h =>
    (Document.mk h.id h.content h.metadata h.embedding, clamp01 (1 - h.distance / 2))))

/-- The externally-provided vector store as `SearchEngineAdapter` consumes
it: `hits k` is the raw ChromaDB query response for the current (already
embedded) query with `n_results = k`, and `document_count` is
`get_stats()["document_count"]`. -/
structure VectorStore where
  hits : ℕ → List RawHit
  document_count : ℕ

/-- `vector_store.search(query_embedding, k)` as the engine calls it. -/
def VectorStore.search (vs : VectorStore) (k : ℕ) : List SearchResult :=
  chroma_search (vs.hits k)

/-- Python `s.lower()` (ASCII inputs), as a character list. -/
def pyLower (s : String) : List Char := s.toList.map Char.toLower

/-- The accumulator recursion behind Python `s.split()`: `cur` holds the
(reversed) word being read; whitespace closes the current word, if any. -/
def splitWsAux : List Char → List Char → List (List Char)
  | [], cur => if cur = [] then [] else [cur.reverse]
  | c :: rest, cur =>
    if pyIsSpace c then
      if cur = [] then splitWsAux rest [] else cur.reverse :: splitWsAux rest []
    else splitWsAux rest (c :: cur)

/-- Python `s.split()` with no arguments: split on runs of whitespace,
dropping empty pieces. -/
def pySplitWs (s : List Char) : List (List Char) := splitWsAux s []

/-- Left-to-right non-overlapping substring counting: after a match the scan
skips past it (`skip` counts the remaining characters of the current match
still to be stepped over). -/
def countOccGo (pat : List Char) : ℕ → List Char → ℕ
  | _, [] => 0
  | skip + 1, _ :: rest => countOccGo pat skip rest
  | 0, c :: rest =>
    if pat.isPrefixOf (c :: rest) then countOccGo pat (pat.length - 1) rest + 1
    else countOccGo pat 0 rest

/-- Python `hay.count(pat)`: non-overlapping occurrences of `pat` in `hay`
(`len(hay) + 1` for the empty pattern, as in Python). -/
def pyCount (hay : List Char) (pat : List Char) : ℕ :=
  if pat = [] then hay.length + 1 else countOccGo pat 0 hay

/-- The keyword score of one candidate in `_bm25_search`:
`sum(content_lower.count(term) for term in query_terms) /
max(len(content), 1)`. -/
def keywordScore (query_terms : List (List Char)) (content : String) : ℚ :=
  ((query_terms.map (fun t => (pyCount (pyLower content) t : ℚ))).sum) /
    (max content.length 1 : ℚ)

/-- The descending stable sort `scored.sort(key=lambda x: x[1], reverse=True)`
used by `_bm25_search` and `_hybrid_search`: Python's sort is stable, and
`List.insertionSort` with this comparison inserts each element before the
first earlier-sorted element whose score is not larger, which reproduces
stable descending order. -/
def sortByScoreDesc {α : Type} (l : List (α × ℚ)) : List (α × ℚ) :=
  l.insertionSort (fun a b => b.2 ≤ a.2)

/-- `SearchEngineAdapter._semantic_search(query, limit)`: embed the query and
search the vector store with `k = limit` (both external), returning the
store's results as-is. -/
def semantic_search (vs : VectorStore) (limit : ℕ) : List SearchResult :=
  vs.search limit

/-- The `scored_results` list of `_bm25_search`: each of the `2 × limit`
semantic candidates paired with its keyword score. -/
def bm25Scored (vs : VectorStore) (query : String) (limit : ℕ) :
    List (SearchResult × ℚ) :=
  (vs.search (limit * 2)).map
    (fun r => (r, keywordScore (pySplitWs (pyLower query)) r.document.content))

/-- `SearchEngineAdapter._bm25_search(query, limit)` (lines 97-141): empty
index short-circuits to `[]`; otherwise `2 × limit` semantic candidates are
re-scored by keyword frequency, sorted descending by that score, truncated
to `limit`, and re-ranked with `score = min(1.0, keyword_score)`. -/
def bm25_search (vs : VectorStore) (query : String) (limit : ℕ) : List SearchResult :=
  if vs.document_count = 0 then []
  else
    withRanks (((sortByScoreDesc (bm25Scored vs query limit)).take limit).map
      (fun p => (p.1.document, min 1 p.2)))

/-- Python dict assignment `m[k] = v` on an insertion-ordered dict: an
existing key keeps its position and gets the new value, a new key is
appended. -/
def dictSet {β : Type} (m : List (String × β)) (k : String) (v : β) :
    List (String × β) :=
  if m.any (fun p => p.1 = k) then
    m.map (fun p => if p.1 = k then (k, v) else p)
  else m ++ [(k, v)]

/-- Python dict lookup `m[k]` / `k in m`. -/
def dictGet {β : Type} (m : List (String × β)) (k : String) : Option β :=
  (m.find? (fun p => p.1 = k)).map (fun p => p.2)

/-- The `doc_scores` union of `_hybrid_search` (lines 157-172): seed the map
with the semantic results as `(document, semantic_score, 0.0)`, then for
each keyword result either update the keyword slot of an existing entry or
append the document with semantic score `0.0`. -/
def combineScores (semantic_results keyword_results : List SearchResult) :
    List (String × Document × ℚ × ℚ) :=
  keyword_results.foldl
    (fun m r =>
      match dictGet m r.document.id with
      | some v => dictSet m r.document.id (v.1, v.2.1, r.score)
      | none => dictSet m r.document.id (r.document, (0 : ℚ), r.score))
    (semantic_results.foldl
      (fun m r => dictSet m r.document.id (r.document, r.score, (0 : ℚ))) [])

/-- The `hybrid_results` list of `_hybrid_search`: every `doc_scores` entry
scored `hybrid_weight × semantic_score + (1 − hybrid_weight) ×
keyword_score`. -/
def hybridEntries (vs : VectorStore) (hybrid_weight : ℚ) (query : String)
    (limit : ℕ) : List (Document × ℚ) :=
  (combineScores (semantic_search vs (limit * 2)) (bm25_search vs query (limit * 2))).map
    (fun p => (p.2.1, hybrid_weight * p.2.2.1 + (1 - hybrid_weight) * p.2.2.2))

/-- `SearchEngineAdapter._hybrid_search(query, limit)` (lines 143-203):
fetch `2 × limit` semantic and keyword results, union their scores per
document id, score each document
`hybrid_weight × semantic_score + (1 − hybrid_weight) × keyword_score`,
sort descending, truncate to `limit` and stamp fresh ranks. -/
def hybrid_search (vs : VectorStore) (hybrid_weight : ℚ) (query : String)
    (limit : ℕ) : List SearchResult :=
  withRanks ((sortByScoreDesc (hybridEntries vs hybrid_weight query limit)).take limit)

/-- The literal `SearchMode` values. -/
inductive SearchMode where
  | semantic
  | bm25
  | hybrid
  deriving DecidableEq, Repr

/-- The clamp `max(0.0, min(1.0, hybrid_weight))` performed by
`SearchEngineAdapter.__init__`. -/
def mkHybridWeight (w : ℚ) : ℚ := max 0 (min 1 w)

/-- `SearchEngineAdapter.search(query, mode, limit)` (lines 52-74) for an
adapter constructed with raw weight `w`: a pure mode dispatch.  Faithful to
the source, no validation of `query` or `limit` happens anywhere on these
paths, so the result type carries no error case for them. -/
def search (vs : VectorStore) (w : ℚ) (query : String) (mode : SearchMode)
    (limit : ℕ) : List SearchResult :=
  match mode with
  | .semantic => semantic_search vs limit
  | .bm25 => bm25_search vs query limit
  | .hybrid => hybrid_search vs (mkHybridWeight w) query limit

/-- The static `_expansions` dict of `SearchEngineAdapter.__init__`, in
insertion order. -/
def expansions : List (String × List String) :=
  [("python", ["python", "py", "programming"]),
   ("ml", ["machine learning", "ml", "artificial intelligence"]),
   ("ai", ["artificial intelligence", "ai", "machine learning"]),
   ("api", ["api", "interface", "endpoint"])]

/-- Python substring membership `pat in hay`. -/
def strContains (hay : List Char) (pat : List Char) : Bool :=
  decide (0 < pyCount hay pat)

/-- The de-duplication loop ending `expand_query`: keep the first occurrence
of each term, preserving order (`seen` accumulates the terms already
kept). -/
def pyDedupGo (seen : List String) : List String → List String
  | [] => []
  | t :: ts => if t ∈ seen then pyDedupGo seen ts else t :: pyDedupGo (t :: seen) ts

/-- De-duplicate preserving first-seen order, starting from nothing seen. -/
def pyDedup (l : List String) : List String := pyDedupGo [] l

/-- The list `expand_query` builds before de-duplication: the original query,
then for every expansion key occurring as a substring of the lower-cased
query, that key's synonyms minus any synonym equal to the lower-cased
query. -/
def rawExpanded (query : String) : List String :=
  expansions.foldl
    (fun acc kv =>
      if strContains (pyLower query) kv.1.toList then
        acc ++ kv.2.filter (fun s => s.toList ≠ pyLower query)
      else acc)
    [query]

/-- `memoria.domain.value_objects.QueryTerms`. -/
structure QueryTerms where
  original : String
  expanded : List String
  deriving DecidableEq, Repr

/-- `SearchEngineAdapter.expand_query(query)` (lines 205-234). -/
def expand_query (query : String) : QueryTerms :=
  { original := query, expanded := pyDedup (rawExpanded query) }

/-- Every returned score lies in the closed interval `[0, 1]`. -/
def scoresBounded (rs : List SearchResult) : Prop :=
  ∀ r ∈ rs, 0 ≤ r.score ∧ r.score ≤ 1

/-- Scores are non-increasing in list order. -/
def scoresNonIncreasing (rs : List SearchResult) : Prop :=
  rs.Pairwise (fun a b => b.score ≤ a.score)

/-- Every result's `rank` equals its 0-based position in the list. -/
def ranksAreIndices (rs : List SearchResult) : Prop :=
  ∀ i, (h : i < rs.length) → (rs.get ⟨i, h⟩).rank = i

/-- A stored side score of a `doc_scores` entry either comes from the given
candidate pool (some result there has this id and exactly this score) or is
the `0.0` filled in for a side the document is missing from. -/
def scoreFromPool (pool : List SearchResult) (id : String) (s : ℚ) : Prop :=
  (∃ r ∈ pool, r.document.id = id ∧ r.score = s) ∨ s = 0

/-- Whether a source's `process_document` call succeeds. -/
def Source.isOk (s : Source) : Bool :=
  match s.result with
  | .ok _ => true
  | .error _ => false

/-- Concrete sample hit used to instantiate theorems with hypotheses. -/
def hitA : RawHit :=
  { id := "d1", content := "alpha beta", distance := 1 / 2 }

/-- A one-document vector store: `hits k` returns at most `k` hits, as the
nearest-neighbour query does. -/
def vs1 : VectorStore :=
  { hits := fun k => List.take k [hitA], document_count := 1 }

/-- An empty vector store. -/
def vs0 : VectorStore :=
  { hits := fun _ => [], document_count := 0 }

/-- The document `chroma_search` reconstructs from `hitA`. -/
def docA : Document :=
  { id := "d1", content := "alpha beta" }

/-- Sample chunk documents for the pipeline theorems. -/
def docChunk1 : Document := { id := "a.md_0", content := "alpha" }

/-- Second sample chunk document. -/
def docChunk2 : Document := { id := "c.md_0", content := "gamma" }

/-- A succeeding sample source. -/
def srcA : Source := { name := "a.md", result := .ok [docChunk1] }

/-- A second succeeding sample source. -/
def srcC : Source := { name := "c.md", result := .ok [docChunk2] }

/-- A sample embedding function for pipeline instantiations. -/
def embed1 : String → List ℚ := fun _ => [1]

/-- A document without an embedding (rejected by `add_documents`). -/
def docNoEmb : Document := { id := "n1", content := "text" }

/-- A document carrying an embedding. -/
def docEmb : Document :=
  { id := "e1", content := "text", embedding := some [1] }

instance instScoreRelTotal {α : Type} :
    IsTotal (α × ℚ) (fun a b => b.2 ≤ a.2) :=
  ⟨fun a b => le_total b.2 a.2⟩

instance instScoreRelTrans {α : Type} :
    IsTrans (α × ℚ) (fun a b => b.2 ≤ a.2) :=
  ⟨fun _ _ _ h1 h2 => le_trans h2 h1⟩

section Theorems

/-- `runEvents` accounting: driving a tracker with one event per source adds
one to `processed_documents` per event (the source counts every handled
document there, succeeded or failed), one to `failed_documents` per failed
source, and leaves `total_documents` alone. -/
theorem runEvents_counts (evs : List SourceEvent) : ∀ t : ProgressTracker,
    (runEvents t evs).processed_documents
        = t.processed_documents + countSuccess evs + countFailure evs ∧
      (runEvents t evs).failed_documents = t.failed_documents + countFailure evs ∧
      (runEvents t evs).total_documents = t.total_documents := by
  induction evs with
  | nil => intro t; simp [runEvents, countSuccess, countFailure]
  | cons e evs ih =>
    intro t
    cases e with
    | success n =>
      have h := ih (t.mark_processed n)
      simp only [runEvents, List.foldl_cons, applyEvent] at h ⊢
      simp [ProgressTracker.mark_processed, countSuccess, countFailure] at h ⊢
      omega
    | failure n msg =>
      have h := ih (t.mark_failed n msg)
      simp only [runEvents, List.foldl_cons, applyEvent] at h ⊢
      simp [ProgressTracker.mark_failed, countSuccess, countFailure] at h ⊢
      omega

/-- Claim C7, counterexample: a tracker for 2 sources, driven as the
pipeline prescribes through exactly one failed source (none succeeded, one
source still unhandled), does not satisfy "`is_complete` exactly when
succeeded + failed ≥ total": succeeded + failed = 0 + 1 < 2, yet
`is_complete` is already true — `mark_failed` increments
`processed_documents` as well, so `is_complete` double-counts failures. -/
theorem is_complete_true_while_source_unhandled :
    ¬((runEvents (ProgressTracker.init 2)
          [SourceEvent.failure "a.md" "boom"]).is_complete = true
        ↔ 2 ≤ 0 + 1) := by
  intro h
  have h1 : (runEvents (ProgressTracker.init 2)
      [SourceEvent.failure "a.md" "boom"]).is_complete = true := rfl
  have h2 := h.mp h1
  omega


/-- Claim C7, amended: for a tracker driven as the pipeline prescribes
(`mark_processed` once per succeeded source, `mark_failed` once per failed
source), `is_complete` is true exactly when
succeeded + 2 × failed ≥ total_documents — `mark_failed` also increments
`processed_documents`, so failures are double-counted and `is_complete`
can already hold while sources remain unhandled. -/
theorem is_complete_iff_double_counted (total : ℕ) (evs : List SourceEvent) :
    (runEvents (ProgressTracker.init total) evs).is_complete = true
      ↔ total ≤ countSuccess evs + 2 * countFailure evs := by
  obtain ⟨hp, hf, ht⟩ := runEvents_counts evs (ProgressTracker.init total)
  simp only [ProgressTracker.is_complete, decide_eq_true_eq, hp, hf, ht]
  simp only [ProgressTracker.init]
  omega

/-- The batched `collection.add` loop adds exactly the given documents, in
order, after the existing contents. -/
theorem addBatches_eq (n : ℕ) : ∀ docs : List Document, docs.length ≤ n →
    ∀ store, addBatches store docs = store ++ docs := by
  induction n with
  | zero =>
    intro docs hlen store
    have hd : docs = [] := List.length_eq_zero.mp (Nat.le_zero.mp hlen)
    subst hd
    rw [addBatches]
    simp
  | succ n ih =>
    intro docs hlen store
    cases docs with
    | nil => rw [addBatches]; simp
    | cons d ds =>
      rw [addBatches]
      have hlen2 : ((d :: ds).drop 5000).length ≤ n := by
        simp only [List.length_drop, List.length_cons]
        simp only [List.length_cons] at hlen
        omega
      rw [ih _ hlen2]
      rw [List.append_assoc, List.take_append_drop]

/-- If some document in the list has no embedding, the left-to-right
validation scan finds one. -/
theorem firstMissingEmbedding_of_mem : ∀ docs : List Document,
    (∃ d ∈ docs, d.embedding = none) → ∃ d, firstMissingEmbedding docs = some d := by
  intro docs
  induction docs with
  | nil => rintro ⟨d, hd, _⟩; exact absurd hd (List.not_mem_nil d)
  | cons d ds ih =>
    rintro ⟨e, he, hemb⟩
    by_cases hd : d.embedding = none
    · exact ⟨d, by simp [firstMissingEmbedding, hd]⟩
    · rcases List.mem_cons.mp he with rfl | hmem
      · exact absurd hemb hd
      · obtain ⟨f, hf⟩ := ih ⟨e, hmem, hemb⟩
        exact ⟨f, by simp [firstMissingEmbedding, hd, hf]⟩

/-- If every document carries an embedding, the validation scan finds
nothing. -/
theorem firstMissingEmbedding_eq_none : ∀ docs : List Document,
    (∀ d ∈ docs, d.embedding ≠ none) → firstMissingEmbedding docs = none := by
  intro docs
  induction docs with
  | nil => intro _; rfl
  | cons d ds ih =>
    intro h
    have hd : d.embedding ≠ none := h d (List.mem_cons_self d ds)
    simp only [firstMissingEmbedding, if_neg hd]
    exact ih (fun e he => h e (List.mem_cons_of_mem d he))

/-- Claim C10: `ChromaDBAdapter.add_documents` accepts the empty list as a
no-op; if any document in the list lacks an embedding it fails with an
error raised by the validation pass that runs before the first write, so
the store is unchanged on that error; and when every document carries an
embedding the whole list is appended. -/
theorem add_documents_validates_before_write (store docs : List Document) :
    add_documents store [] = .ok store ∧
      ((∃ d ∈ docs, d.embedding = none) →
        ∃ msg, add_documents store docs = .error msg) ∧
      ((∀ d ∈ docs, d.embedding ≠ none) →
        add_documents store docs = .ok (store ++ docs)) := by
  refine ⟨rfl, ?_, ?_⟩
  · intro hmem
    have hne : docs ≠ [] := by
      rintro rfl
      obtain ⟨d, hd, _⟩ := hmem
      exact absurd hd (List.not_mem_nil d)
    obtain ⟨d, hd⟩ := firstMissingEmbedding_of_mem docs hmem
    refine ⟨"Document " ++ d.id ++ " missing embedding", ?_⟩
    simp [add_documents, hne, hd]
  · intro hall
    by_cases hne : docs = []
    · subst hne; simp [add_documents]
    · simp [add_documents, hne, firstMissingEmbedding_eq_none docs hall,
        addBatches_eq docs.length docs le_rfl store]

/-- Claim C10, witness: concrete instances — the empty list is a no-op, a
list containing an embedding-less document errors, and a fully-embedded
list is appended whole. -/
theorem add_documents_validates_before_write_witness :
    add_documents [docEmb] [] = .ok [docEmb] ∧
      (∃ msg, add_documents [docEmb] [docEmb, docNoEmb] = .error msg) ∧
      add_documents [docEmb] [docEmb] = .ok ([docEmb] ++ [docEmb]) :=
  ⟨(add_documents_validates_before_write [docEmb] []).1,
   (add_documents_validates_before_write [docEmb] [docEmb, docNoEmb]).2.1
     ⟨docNoEmb, by decide, by decide⟩,
   (add_documents_validates_before_write [docEmb] [docEmb]).2.2
     (by decide)⟩

/-- Claim C4: `chunk_text` performs no parameter validation — with
`chunk_size = 0` (violating `chunk_size ≥ 1`), with `overlap = 5 ≥
chunk_size = 2`, and with `overlap = -1 < 0` it returns an ordinary chunk
list instead of failing with an `InvalidParameter` error (the
`DocumentProcessorPort` docstring says such inputs raise `ValueError`). -/
theorem chunk_text_accepts_invalid_params :
    chunk_text "hello world".toList 0 0 = [] ∧
      chunk_text "abc".toList 2 5 =
        [Chunk.mk ['a', 'b'] 0 2 [], Chunk.mk ['b', 'c'] 1 3 [],
          Chunk.mk ['c'] 2 3 []] ∧
      chunk_text "abc".toList 2 (-1) = [Chunk.mk ['a', 'b'] 0 2 []] := by
  refine ⟨?_, ?_, ?_⟩ <;> decide

/-- A found space position satisfies `start ≤ p < stop`. -/
theorem rfindSpace_some {text : List Char} {start : ℕ} :
    ∀ {stop p : ℕ}, rfindSpace text start stop = some p → start ≤ p ∧ p < stop := by
  intro stop
  induction stop with
  | zero => intro p h; exact absurd h (by simp [rfindSpace])
  | succ stop ih =>
    intro p h
    rw [rfindSpace] at h
    by_cases hlt : stop < start
    · rw [if_pos hlt] at h; exact absurd h (by simp)
    · rw [if_neg hlt] at h
      by_cases hsp : text.getD stop 'x' = ' '
      · rw [if_pos hsp] at h
        cases h
        omega
      · rw [if_neg hsp] at h
        have := ih h
        omega

/-- In a text containing no space character, the backward space search
never finds anything. -/
theorem rfindSpace_eq_none {text : List Char} (hsp : ∀ c ∈ text, c ≠ ' ')
    (start : ℕ) : ∀ stop, rfindSpace text start stop = none := by
  intro stop
  induction stop with
  | zero => rfl
  | succ stop ih =>
    rw [rfindSpace]
    by_cases hlt : stop < start
    · rw [if_pos hlt]
    · rw [if_neg hlt]
      have hne : ¬text.getD stop 'x' = ' ' := by
        rw [List.getD_eq_getElem?_getD]
        cases hg : text[stop]? with
        | none => simp
        | some c =>
          obtain ⟨hlt2, hc⟩ := List.getElem?_eq_some.mp hg
          have : c ∈ text := hc ▸ List.getElem_mem hlt2
          simpa using hsp c this
      rw [if_neg hne]
      exact ih

/-- The chunk end never passes the end of the text. -/
theorem chunkEnd_le_length (text : List Char) (cs start : ℕ) :
    chunkEnd text cs start ≤ text.length := by
  rw [chunkEnd]
  split
  · split
    · rename_i p hp
      have := rfindSpace_some hp
      split
      · omega
      · omega
    · omega
  · omega

/-- The chunk end never passes `start + chunk_size`: the word-boundary
search only ever moves a chunk end backward, so no chunk is oversized. -/
theorem chunkEnd_le_add (text : List Char) (cs start : ℕ) :
    chunkEnd text cs start ≤ start + cs := by
  rw [chunkEnd]
  split
  · split
    · rename_i p hp
      have := rfindSpace_some hp
      split
      · omega
      · omega
    · omega
  · omega

/-- For a positive chunk size, each iteration's chunk end lies strictly
after its start. -/
theorem lt_chunkEnd {text : List Char} {cs start : ℕ} (h1 : 1 ≤ cs)
    (hs : start < text.length) : start < chunkEnd text cs start := by
  rw [chunkEnd]
  split
  · split
    · rename_i p hp
      split
      · omega
      · omega
    · omega
  · omega

/-- In a text with no space character, the boundary search changes nothing:
the chunk end is exactly `min(start + chunk_size, len(text))`. -/
theorem chunkEnd_of_nospace {text : List Char} (hsp : ∀ c ∈ text, c ≠ ' ')
    (cs start : ℕ) : chunkEnd text cs start = min (start + cs) text.length := by
  rw [chunkEnd]
  rw [rfindSpace_eq_none hsp]
  split
  · rfl
  · rfl

/-- The forced advance makes strict progress. -/
theorem lt_nextStart (ov : ℤ) (start finish : ℕ) :
    start < nextStart ov start finish := by
  rw [nextStart]
  split
  · omega
  · rename_i h
    omega

/-- The advance never passes the chunk end when the overlap is
non-negative. -/
theorem nextStart_le {ov : ℤ} (hov : 0 ≤ ov) (start finish : ℕ)
    (hsf : start < finish) : nextStart ov start finish ≤ finish := by
  rw [nextStart]
  split
  · omega
  · rename_i h
    omega

/-- Once `start` has reached the end of the text, the loop stops. -/
theorem chunkLoopF_of_le {text : List Char} {cs : ℕ} {ov : ℤ} {start : ℕ}
    (h : text.length ≤ start) :
    ∀ fuel, chunkLoopF text cs ov start fuel = [] := by
  intro fuel
  cases fuel with
  | zero => rfl
  | succ f => simp [chunkLoopF, Nat.not_lt.mpr h]

/-- Any fuel of at least `text.length - start` produces the same chunk
list: the loop really terminates after that many iterations, because each
iteration strictly increases `start` (the source's forced-progress
argument). -/
theorem chunkLoopF_fuel_irrelevant {text : List Char} {cs : ℕ} {ov : ℤ} :
    ∀ (f1 : ℕ) {start f2 : ℕ}, text.length ≤ start + f1 → text.length ≤ start + f2 →
      chunkLoopF text cs ov start f1 = chunkLoopF text cs ov start f2 := by
  intro f1
  induction f1 with
  | zero =>
    intro start f2 h1 _
    rw [chunkLoopF_of_le (by omega), chunkLoopF_of_le (by omega)]
  | succ f ih =>
    intro start f2 h1 h2
    by_cases hs : start < text.length
    · cases f2 with
      | zero => omega
      | succ g =>
        simp only [chunkLoopF, if_pos hs]
        have hrec : chunkLoopF text cs ov (nextStart ov start (chunkEnd text cs start)) f
            = chunkLoopF text cs ov (nextStart ov start (chunkEnd text cs start)) g := by
          have := lt_nextStart ov start (chunkEnd text cs start)
          exact ih (by omega) (by omega)
        rw [hrec]
    · rw [chunkLoopF_of_le (by omega), chunkLoopF_of_le (by omega)]

/-- With a positive chunk size, every loop iteration started inside the
text emits at least one chunk. -/
theorem chunkLoopF_length_pos {text : List Char} {cs : ℕ} {ov : ℤ}
    {start fuel : ℕ} (h1 : 1 ≤ cs) (hs : start < text.length) (hf : 1 ≤ fuel) :
    1 ≤ (chunkLoopF text cs ov start fuel).length := by
  cases fuel with
  | zero => omega
  | succ f =>
    simp only [chunkLoopF, if_pos hs]
    have hfin := lt_chunkEnd h1 hs
    have hct : ((text.drop start).take (chunkEnd text cs start - start)).length
        = min (chunkEnd text cs start - start) (text.length - start) := by
      simp [List.length_take, List.length_drop]
    have hne : (text.drop start).take (chunkEnd text cs start - start) ≠ [] := by
      intro hx
      rw [hx] at hct
      simp at hct
      omega
    rw [if_neg hne]
    simp

/-- Every chunk the loop emits spans at most `chunk_size` characters (both
as a position range and as a text). -/
theorem chunkLoopF_size {text : List Char} {cs : ℕ} {ov : ℤ} :
    ∀ (fuel start : ℕ), ∀ ch ∈ chunkLoopF text cs ov start fuel,
      ch.text.length ≤ cs ∧ ch.end_pos - ch.start_pos ≤ cs := by
  intro fuel
  induction fuel with
  | zero => intro start ch hch; exact absurd hch (by simp [chunkLoopF])
  | succ f ih =>
    intro start ch hch
    by_cases hs : start < text.length
    · simp only [chunkLoopF, if_pos hs] at hch
      have hle := chunkEnd_le_add text cs start
      by_cases hct : (text.drop start).take (chunkEnd text cs start - start) = []
      · rw [if_pos hct] at hch
        exact ih _ ch hch
      · rw [if_neg hct] at hch
        rcases List.mem_cons.mp hch with rfl | htail
        · constructor
          · simp only [List.length_take, List.length_drop]
            omega
          · simp only
            omega
        · exact ih _ ch htail
    · simp only [chunkLoopF, if_neg hs] at hch
      exact absurd hch (List.not_mem_nil ch)

/-- Claim C8: for any text and valid parameters (`chunk_size ≥ 1`,
`0 ≤ overlap < chunk_size`), chunking terminates — any fuel of at least
`text.length` loop iterations yields the same finite chunk list — and the
list contains at least one chunk whenever the input text is non-empty. -/
theorem chunk_text_terminates (text : List Char) (cs : ℕ) (ov : ℤ)
    (h1 : 1 ≤ cs) (_h2 : 0 ≤ ov) (_h3 : ov < (cs : ℤ)) (hne : text ≠ []) :
    1 ≤ (chunk_text text cs ov).length ∧
      ∀ fuel, text.length ≤ fuel →
        chunkLoopF text cs ov 0 fuel = chunk_text text cs ov := by
  have hlen : 0 < text.length := List.length_pos.mpr hne
  constructor
  · rw [chunk_text, if_neg hne]
    exact chunkLoopF_length_pos h1 hlen (by omega)
  · intro fuel hf
    rw [chunk_text, if_neg hne]
    exact chunkLoopF_fuel_irrelevant fuel (by omega) (by omega)

/-- Claim C8, witness: chunking `"hello world"` with `chunk_size = 3`,
`overlap = 1` yields at least one chunk, and any sufficient fuel computes
the same list. -/
theorem chunk_text_terminates_witness :
    1 ≤ (chunk_text "hello world".toList 3 1).length ∧
      chunkLoopF "hello world".toList 3 1 0 100 =
        chunk_text "hello world".toList 3 1 :=
  ⟨(chunk_text_terminates "hello world".toList 3 1 (by decide) (by decide)
      (by decide) (by decide)).1,
   (chunk_text_terminates "hello world".toList 3 1 (by decide) (by decide)
      (by decide) (by decide)).2 100 (by decide)⟩

/-- Claim C5, counterexample: `chunk_text("abcdefgh", 3, 0)` — a single
unbroken 8-character word with `chunk_size = 3` — is split into three
chunks of at most `chunk_size` characters, not emitted whole as one
oversized chunk. -/
theorem single_long_word_not_emitted_whole :
    chunk_text "abcdefgh".toList 3 0 =
        [Chunk.mk ['a', 'b', 'c'] 0 3 [], Chunk.mk ['d', 'e', 'f'] 3 6 [],
          Chunk.mk ['g', 'h'] 6 8 []] ∧
      ¬(chunk_text "abcdefgh".toList 3 0).length = 1 := by
  refine ⟨?_, ?_⟩ <;> decide

/-- Claim C5, amended: a single unbroken word (no space character) longer
than `chunk_size` is split by `chunk_text` into at least two chunks, each
spanning at most `chunk_size` characters — it is not emitted whole, and no
chunk is ever oversized, since the word-boundary search only moves chunk
ends backward. -/
theorem single_long_word_split (text : List Char) (cs : ℕ) (ov : ℤ)
    (h1 : 1 ≤ cs) (h2 : 0 ≤ ov) (_h3 : ov < (cs : ℤ))
    (hsp : ∀ c ∈ text, c ≠ ' ') (hlen : cs < text.length) :
    2 ≤ (chunk_text text cs ov).length ∧
      ∀ ch ∈ chunk_text text cs ov,
        ch.text.length ≤ cs ∧ ch.end_pos - ch.start_pos ≤ cs := by
  have hne : text ≠ [] := by
    intro h
    rw [h] at hlen
    simp at hlen
  constructor
  · rw [chunk_text, if_neg hne]
    obtain ⟨k, hk⟩ : ∃ k, text.length = k + 1 := ⟨text.length - 1, by omega⟩
    rw [hk]
    have hpos : 0 < text.length := by omega
    simp only [chunkLoopF, if_pos hpos]
    have hce : chunkEnd text cs 0 = cs := by
      rw [chunkEnd_of_nospace hsp]
      omega
    rw [hce]
    simp only [Nat.sub_zero, List.drop_zero]
    have hct : text.take cs ≠ [] := by
      intro hx
      have := congrArg List.length hx
      simp only [List.length_take, List.length_nil] at this
      omega
    rw [if_neg hct]
    simp only [List.length_cons]
    have hnext : nextStart ov 0 cs < text.length := by
      have := nextStart_le h2 0 cs (by omega)
      omega
    have := @chunkLoopF_length_pos text cs ov (nextStart ov 0 cs) k h1 hnext
      (show 1 ≤ k by omega)
    omega
  · intro ch hch
    rw [chunk_text, if_neg hne] at hch
    exact chunkLoopF_size _ _ ch hch

/-- Claim C5, witness for the amended statement: the spaceless 6-character
word `"abcdef"` with `chunk_size = 2`, `overlap = 1` is split into at
least two chunks. -/
theorem single_long_word_split_witness :
    2 ≤ (chunk_text "abcdef".toList 2 1).length :=
  (single_long_word_split "abcdef".toList 2 1 (by decide) (by decide)
    (by decide) (by decide) (by decide)).1

/-- When the flush succeeds, a committed batch appends exactly the embedded
chunks to the store. -/
theorem embedAndCommitBatch_store (embed : String → List ℚ)
    (flushOk : List Document → Bool) (hfl : ∀ c, flushOk c = true)
    (store chunks : List Document) :
    (embedAndCommitBatch embed flushOk store chunks).1
      = store ++ chunks.map (embedDoc embed) := by
  rw [embedAndCommitBatch]
  by_cases h : chunks = []
  · simp [h]
  · simp [h, hfl chunks]

/-- Folding the source loop over sources that all succeed preserves the
committed-plus-pending chunk account and leaves the failure fields of the
tracker untouched. -/
theorem foldl_indexStep_ok (embed : String → List ℚ)
    (flushOk : List Document → Bool) (B : ℕ) (hfl : ∀ c, flushOk c = true) :
    ∀ (srcs : List Source) (st : IndexState), (∀ s ∈ srcs, s.isOk = true) →
      (srcs.foldl (indexStep embed flushOk B) st).store ++
          ((srcs.foldl (indexStep embed flushOk B) st).pending.map (embedDoc embed))
          = st.store ++
            ((st.pending ++ (srcs.map Source.okDocs).flatten).map (embedDoc embed)) ∧
        (srcs.foldl (indexStep embed flushOk B) st).tracker.failed_documents
          = st.tracker.failed_documents ∧
        (srcs.foldl (indexStep embed flushOk B) st).tracker.failed_files
          = st.tracker.failed_files := by
  intro srcs
  induction srcs with
  | nil => intro st _; simp
  | cons s rest ih =>
    intro st hall
    obtain ⟨docs, hres⟩ : ∃ docs, s.result = Except.ok docs := by
      have hok := hall s (List.mem_cons_self s rest)
      cases hres2 : s.result with
      | ok docs => exact ⟨docs, rfl⟩
      | error e => rw [Source.isOk, hres2] at hok; exact absurd hok (by simp)
    simp only [List.foldl_cons]
    have h1 : (indexStep embed flushOk B st s).store ++
          ((indexStep embed flushOk B st s).pending.map (embedDoc embed))
          = st.store ++ ((st.pending ++ docs).map (embedDoc embed)) ∧
        (indexStep embed flushOk B st s).tracker.failed_documents
          = st.tracker.failed_documents ∧
        (indexStep embed flushOk B st s).tracker.failed_files
          = st.tracker.failed_files := by
      rw [indexStep, hres]
      simp only
      by_cases hB : B ≤ (st.pending ++ docs).length
      · rw [if_pos hB]
        refine ⟨?_, ?_, ?_⟩
        · rw [embedAndCommitBatch_store embed flushOk hfl]
          simp
        · simp [ProgressTracker.mark_processed]
        · simp [ProgressTracker.mark_processed]
      · rw [if_neg hB]
        refine ⟨rfl, ?_, ?_⟩
        · simp [ProgressTracker.mark_processed]
        · simp [ProgressTracker.mark_processed]
    have hok2 : s.okDocs = docs := by rw [Source.okDocs, hres]
    obtain ⟨ha, hb, hc⟩ := ih (indexStep embed flushOk B st s)
      (fun x hx => hall x (List.mem_cons_of_mem s hx))
    refine ⟨?_, ?_, ?_⟩
    · rw [ha]
      simp only [List.map_append, List.flatten_cons, ← List.append_assoc]
      rw [h1.1]
      simp [hok2, List.map_append, List.append_assoc]
    · rw [hb, h1.2.1]
    · rw [hc, h1.2.2]

/-- A failing source only marks the tracker; the pending buffer, the store
and the committed count are untouched, and the failure is appended to
`failed_files`. -/
theorem indexStep_error (embed : String → List ℚ)
    (flushOk : List Document → Bool) (B : ℕ) (st : IndexState)
    (name msg : String) :
    indexStep embed flushOk B st (Source.mk name (.error msg))
      = { st with tracker :=
            { st.tracker with
                processed_documents := st.tracker.processed_documents + 1
                failed_documents := st.tracker.failed_documents + 1
                failed_files := st.tracker.failed_files ++ [(name, msg)]
                current_document := name } } := by
  rw [indexStep]
  rfl

/-- Claim C6: in an indexing run in which exactly one source fails
extraction/chunking and every other step succeeds, the run still commits
the chunks of all other sources (in order) to the vector store, the
tracker's `failed_documents` equals 1, and the failed source's name and
error message are the only entry of `failed_files`. -/
theorem index_documents_partial_failure (embed : String → List ℚ)
    (flushOk : List Document → Bool) (B : ℕ) (pre post : List Source)
    (name msg : String) (hfl : ∀ c, flushOk c = true)
    (hpre : ∀ s ∈ pre, s.isOk = true) (hpost : ∀ s ∈ post, s.isOk = true) :
    (index_documents embed flushOk B
        (pre ++ Source.mk name (.error msg) :: post)).store
        = ((pre ++ post).map Source.okDocs).flatten.map (embedDoc embed) ∧
      (index_documents embed flushOk B
        (pre ++ Source.mk name (.error msg) :: post)).tracker.failed_documents = 1 ∧
      (index_documents embed flushOk B
        (pre ++ Source.mk name (.error msg) :: post)).tracker.failed_files
        = [(name, msg)] := by
  rw [index_documents]
  set st0 : IndexState :=
    { tracker := ProgressTracker.init (pre ++ Source.mk name (.error msg) :: post).length
      pending := [], store := [], committed := 0 } with hst0
  rw [List.foldl_append, List.foldl_cons]
  set stPre := pre.foldl (indexStep embed flushOk B) st0 with hstPre
  obtain ⟨haPre, hbPre, hcPre⟩ := foldl_indexStep_ok embed flushOk B hfl pre st0 hpre
  rw [indexStep_error]
  set stErr : IndexState :=
    { stPre with tracker :=
        { stPre.tracker with
            processed_documents := stPre.tracker.processed_documents + 1
            failed_documents := stPre.tracker.failed_documents + 1
            failed_files := stPre.tracker.failed_files ++ [(name, msg)]
            current_document := name } } with hstErr
  obtain ⟨haPost, hbPost, hcPost⟩ :=
    foldl_indexStep_ok embed flushOk B hfl post stErr hpost
  set stFin := post.foldl (indexStep embed flushOk B) stErr with hstFin
  have hstore : stFin.store ++ (stFin.pending.map (embedDoc embed))
      = ((pre ++ post).map Source.okDocs).flatten.map (embedDoc embed) := by
    rw [haPost]
    have hErrStore : stErr.store = stPre.store := rfl
    have hErrPending : stErr.pending = stPre.pending := rfl
    rw [hErrStore, hErrPending, List.map_append, ← List.append_assoc, haPre]
    simp [hst0, List.map_append, List.flatten_append]
  have hfailed : stFin.tracker.failed_documents = 1 := by
    rw [hbPost]
    have : stErr.tracker.failed_documents = stPre.tracker.failed_documents + 1 := rfl
    rw [this, hbPre]
    simp [hst0, ProgressTracker.init]
  have hfiles : stFin.tracker.failed_files = [(name, msg)] := by
    rw [hcPost]
    have : stErr.tracker.failed_files = stPre.tracker.failed_files ++ [(name, msg)] := rfl
    rw [this, hcPre]
    simp [hst0, ProgressTracker.init]
  by_cases hp : stFin.pending = []
  · rw [if_pos hp]
    refine ⟨?_, hfailed, hfiles⟩
    rw [← hstore, hp]
    simp
  · rw [if_neg hp]
    refine ⟨?_, hfailed, hfiles⟩
    simp only
    rw [embedAndCommitBatch_store embed flushOk hfl]
    exact hstore

/-- Rank stamping preserves list length. -/
theorem withRanksFrom_length (l : List (Document × ℚ)) :
    ∀ i, (withRanksFrom i l).length = l.length := by
  induction l with
  | nil => intro i; rfl
  | cons p rest ih => intro i; simp [withRanksFrom, ih]

/-- The stamped rank at position `j` of a list stamped from `i` is `i + j`. -/
theorem withRanksFrom_rank (l : List (Document × ℚ)) :
    ∀ (i j : ℕ) (h : j < (withRanksFrom i l).length),
      ((withRanksFrom i l).get ⟨j, h⟩).rank = i + j := by
  induction l with
  | nil => intro i j h; rw [withRanksFrom_length] at h; exact absurd h (by simp)
  | cons p rest ih =>
    intro i j h
    cases j with
    | zero => rfl
    | succ j =>
      have h2 : j < (withRanksFrom (i + 1) rest).length := by
        rw [withRanksFrom_length] at h ⊢
        simpa using h
      have := ih (i + 1) j h2
      simpa [withRanksFrom, Nat.add_assoc, Nat.add_comm 1 j] using this

/-- Every stamped result's document and score come from the corresponding
input pair. -/
theorem withRanksFrom_mem {r : SearchResult} :
    ∀ {l : List (Document × ℚ)} {i : ℕ}, r ∈ withRanksFrom i l →
      ∃ p ∈ l, r.document = p.1 ∧ r.score = p.2 := by
  intro l
  induction l with
  | nil => intro i hr; exact absurd hr (by simp [withRanksFrom])
  | cons p rest ih =>
    intro i hr
    rcases List.mem_cons.mp hr with rfl | htail
    · exact ⟨p, List.mem_cons_self p rest, rfl, rfl⟩
    · obtain ⟨q, hq, hd, hs⟩ := ih htail
      exact ⟨q, List.mem_cons_of_mem p hq, hd, hs⟩

/-- Rank stamping turns a score-descending pair list into a
score-descending result list. -/
theorem withRanksFrom_pairwise :
    ∀ (l : List (Document × ℚ)), l.Pairwise (fun a b => b.2 ≤ a.2) →
      ∀ i, (withRanksFrom i l).Pairwise (fun a b => b.score ≤ a.score) := by
  intro l
  induction l with
  | nil => intro _ i; exact List.Pairwise.nil
  | cons p rest ih =>
    intro h i
    rw [List.pairwise_cons] at h
    refine List.Pairwise.cons ?_ (ih h.2 (i + 1))
    intro r hr
    obtain ⟨q, hq, _, hs⟩ := withRanksFrom_mem hr
    rw [hs]
    exact h.1 q hq

/-- The ranks of any stamped list are exactly its indices. -/
theorem ranksAreIndices_withRanks (l : List (Document × ℚ)) :
    ranksAreIndices (withRanks l) := by
  intro j h
  have := withRanksFrom_rank l 0 j h
  simpa [withRanks] using this

/-- The clamp lower bound. -/
theorem clamp01_nonneg (x : ℚ) : 0 ≤ clamp01 x := le_max_left 0 _

/-- The clamp upper bound. -/
theorem clamp01_le_one (x : ℚ) : clamp01 x ≤ 1 :=
  max_le (by norm_num) (min_le_left 1 x)

/-- The clamp is monotone. -/
theorem clamp01_mono {x y : ℚ} (h : x ≤ y) : clamp01 x ≤ clamp01 y :=
  max_le_max le_rfl (min_le_min le_rfl h)

/-- Scores converted from distances are clamped into `[0, 1]`. -/
theorem chroma_search_bounded (hits : List RawHit) :
    scoresBounded (chroma_search hits) := by
  intro r hr
  obtain ⟨p, hp, _, hs⟩ := withRanksFrom_mem hr
  obtain ⟨h, _, rfl⟩ := List.mem_map.mp hp
  rw [hs]
  exact ⟨clamp01_nonneg _, clamp01_le_one _⟩

/-- When the raw response is distance-ascending (ChromaDB's native
relevance order), the converted scores are non-increasing. -/
theorem chroma_search_sorted {hits : List RawHit}
    (h : hits.Pairwise (fun a b => a.distance ≤ b.distance)) :
    scoresNonIncreasing (chroma_search hits) := by
  refine withRanksFrom_pairwise _ ?_ 0
  refine List.Pairwise.map _ (fun a b hab => ?_) h
  exact clamp01_mono (by linarith)

/-- The keyword score is a quotient of non-negatives. -/
theorem keywordScore_nonneg (terms : List (List Char)) (content : String) :
    0 ≤ keywordScore terms content := by
  rw [keywordScore]
  apply div_nonneg
  · refine List.sum_nonneg fun x hx => ?_
    obtain ⟨t, _, rfl⟩ := List.mem_map.mp hx
    exact Nat.cast_nonneg _
  · exact_mod_cast Nat.zero_le _

/-- The descending sort really sorts: its output is pairwise
score-descending. -/
theorem sortByScoreDesc_pairwise {α : Type} (l : List (α × ℚ)) :
    (sortByScoreDesc l).Pairwise (fun a b => b.2 ≤ a.2) :=
  List.sorted_insertionSort _ l

/-- Membership is preserved by the descending sort. -/
theorem mem_sortByScoreDesc {α : Type} {l : List (α × ℚ)} {p : α × ℚ}
    (h : p ∈ sortByScoreDesc l) : p ∈ l :=
  (List.mem_insertionSort _).mp h

/-- Every result of `_bm25_search` has its score clamped into `[0, 1]`:
keyword scores are non-negative and the final score is `min(1.0, ·)`. -/
theorem bm25_search_bounded (vs : VectorStore) (q : String) (limit : ℕ) :
    scoresBounded (bm25_search vs q limit) := by
  rw [bm25_search]
  by_cases h : vs.document_count = 0
  · rw [if_pos h]
    intro r hr
    exact absurd hr (List.not_mem_nil r)
  · rw [if_neg h]
    intro r hr
    obtain ⟨p, hp, _, hs⟩ := withRanksFrom_mem hr
    obtain ⟨x, hx, rfl⟩ := List.mem_map.mp hp
    have hx3 : x ∈ bm25Scored vs q limit :=
      mem_sortByScoreDesc (List.mem_of_mem_take hx)
    obtain ⟨r2, _, rfl⟩ := List.mem_map.mp hx3
    rw [hs]
    exact ⟨le_min (by norm_num) (keywordScore_nonneg _ _), min_le_left 1 _⟩

/-- `_bm25_search` output is score-descending: descending sort, truncation
and the monotone clamp `min 1` preserve the order. -/
theorem bm25_search_sorted (vs : VectorStore) (q : String) (limit : ℕ) :
    scoresNonIncreasing (bm25_search vs q limit) := by
  rw [bm25_search]
  by_cases h : vs.document_count = 0
  · rw [if_pos h]
    exact List.Pairwise.nil
  · rw [if_neg h]
    refine withRanksFrom_pairwise _ ?_ 0
    refine List.Pairwise.map _ (fun a b hab => min_le_min le_rfl hab) ?_
    exact List.Pairwise.sublist (List.take_sublist limit _)
      (sortByScoreDesc_pairwise (bm25Scored vs q limit))

/-- `_bm25_search` ranks are list indices. -/
theorem bm25_search_ranks (vs : VectorStore) (q : String) (limit : ℕ) :
    ranksAreIndices (bm25_search vs q limit) := by
  rw [bm25_search]
  by_cases h : vs.document_count = 0
  · rw [if_pos h]
    intro i hi
    exact absurd hi (by simp)
  · rw [if_neg h]
    exact ranksAreIndices_withRanks _

/-- A fold preserves any invariant its step preserves. -/
theorem foldl_invariant {σ α : Type} (P : σ → Prop) (step : σ → α → σ) :
    ∀ (l : List α) (init : σ), P init →
      (∀ s x, x ∈ l → P s → P (step s x)) → P (l.foldl step init) := by
  intro l
  induction l with
  | nil => intro init h _; exact h
  | cons x rest ih =>
    intro init h hstep
    exact ih (step init x) (hstep init x (List.mem_cons_self x rest) h)
      (fun s y hy => hstep s y (List.mem_cons_of_mem x hy))

/-- A dict assignment only replaces the bound value or appends the new
binding. -/
theorem dictSet_mem {β : Type} {m : List (String × β)} {k : String} {v : β}
    {e : String × β} (he : e ∈ dictSet m k v) : e ∈ m ∨ e = (k, v) := by
  rw [dictSet] at he
  by_cases h : m.any (fun p => p.1 = k)
  · rw [if_pos h] at he
    obtain ⟨p, hp, hpe⟩ := List.mem_map.mp he
    by_cases hk : p.1 = k
    · rw [if_pos hk] at hpe
      exact Or.inr hpe.symm
    · rw [if_neg hk] at hpe
      exact Or.inl (hpe ▸ hp)
  · rw [if_neg h] at he
    rcases List.mem_append.mp he with hm | hone
    · exact Or.inl hm
    · exact Or.inr (List.mem_singleton.mp hone)

/-- A successful dict lookup returns a binding of the dict. -/
theorem dictGet_mem {β : Type} {m : List (String × β)} {k : String} {v : β}
    (h : dictGet m k = some v) : (k, v) ∈ m := by
  rw [dictGet] at h
  obtain ⟨p, hp, hv⟩ := Option.map_eq_some'.mp h
  have hk : p.1 = k := by
    have := List.find?_some hp
    simpa using this
  have hm : p ∈ m := List.mem_of_find?_eq_some hp
  have : (k, v) = p := by
    rw [← hk, ← hv]
  rw [this]
  exact hm

/-- Every entry of the `doc_scores` union carries, on each side, either the
score of a pool result with the entry's id or the `0.0` of a missing
side. -/
theorem combineScores_spec (semR kwR : List SearchResult) :
    ∀ e ∈ combineScores semR kwR,
      scoreFromPool semR e.1 e.2.2.1 ∧ scoreFromPool kwR e.1 e.2.2.2 := by
  rw [combineScores]
  have h1 : ∀ e ∈ (semR.foldl
      (fun m r => dictSet m r.document.id (r.document, r.score, (0 : ℚ))) []),
      scoreFromPool semR e.1 e.2.2.1 ∧ e.2.2.2 = 0 := by
    refine foldl_invariant
      (fun m : List (String × Document × ℚ × ℚ) =>
        ∀ e ∈ m, scoreFromPool semR e.1 e.2.2.1 ∧ e.2.2.2 = 0)
      _ semR [] ?_ ?_
    · intro e he
      exact absurd he (List.not_mem_nil e)
    · intro m r hr hP e he
      rcases dictSet_mem he with hm | rfl
      · exact hP e hm
      · exact ⟨Or.inl ⟨r, hr, rfl, rfl⟩, rfl⟩
  refine foldl_invariant
    (fun m : List (String × Document × ℚ × ℚ) =>
      ∀ e ∈ m, scoreFromPool semR e.1 e.2.2.1 ∧ scoreFromPool kwR e.1 e.2.2.2)
    _ kwR _ ?_ ?_
  · intro e he
    obtain ⟨hsem, hkw⟩ := h1 e he
    exact ⟨hsem, Or.inr hkw⟩
  · intro m r hr hP e he
    cases hg : dictGet m r.document.id with
    | some v =>
      rw [hg] at he
      have hv := hP (r.document.id, v) (dictGet_mem hg)
      rcases dictSet_mem he with hm | rfl
      · exact hP e hm
      · exact ⟨hv.1, Or.inl ⟨r, hr, rfl, rfl⟩⟩
    | none =>
      rw [hg] at he
      rcases dictSet_mem he with hm | rfl
      · exact hP e hm
      · exact ⟨Or.inr rfl, Or.inl ⟨r, hr, rfl, rfl⟩⟩

/-- When both pools are score-bounded, both stored sides of every
`doc_scores` entry lie in `[0, 1]`. -/
theorem combineScores_bounded {semR kwR : List SearchResult}
    (hs : scoresBounded semR) (hk : scoresBounded kwR) :
    ∀ e ∈ combineScores semR kwR,
      (0 ≤ e.2.2.1 ∧ e.2.2.1 ≤ 1) ∧ 0 ≤ e.2.2.2 ∧ e.2.2.2 ≤ 1 := by
  intro e he
  obtain ⟨h1, h2⟩ := combineScores_spec semR kwR e he
  constructor
  · rcases h1 with ⟨r, hr, _, hsc⟩ | h0
    · rw [← hsc]
      exact hs r hr
    · rw [h0]
      norm_num
  · rcases h2 with ⟨r, hr, _, hsc⟩ | h0
    · rw [← hsc]
      exact hk r hr
    · rw [h0]
      norm_num

/-- Hybrid scores are convex combinations of side scores in `[0, 1]`, hence
themselves in `[0, 1]`, when the weight is in `[0, 1]`. -/
theorem hybrid_search_bounded (vs : VectorStore) {w : ℚ} (q : String)
    (limit : ℕ) (hw0 : 0 ≤ w) (hw1 : w ≤ 1) :
    scoresBounded (hybrid_search vs w q limit) := by
  intro r hr
  obtain ⟨p, hp, _, hs⟩ := withRanksFrom_mem hr
  have hp3 : p ∈ hybridEntries vs w q limit :=
    mem_sortByScoreDesc (List.mem_of_mem_take hp)
  obtain ⟨e, he, rfl⟩ := List.mem_map.mp hp3
  obtain ⟨⟨hs0, hs1⟩, hk0, hk1⟩ := combineScores_bounded
    (chroma_search_bounded (vs.hits (limit * 2)))
    (bm25_search_bounded vs q (limit * 2)) e he
  rw [hs]
  dsimp only
  constructor
  · nlinarith
  · nlinarith

/-- Hybrid output is score-descending: the descending sort and the
truncation preserve order. -/
theorem hybrid_search_sorted (vs : VectorStore) (w : ℚ) (q : String)
    (limit : ℕ) : scoresNonIncreasing (hybrid_search vs w q limit) :=
  withRanksFrom_pairwise _
    (List.Pairwise.sublist (List.take_sublist limit _)
      (sortByScoreDesc_pairwise _)) 0

/-- Claim C1: for every search call in any mode (semantic, bm25, hybrid),
every returned result's score lies in `[0, 1]`, scores are non-increasing
in list order, and every result's rank equals its 0-based index — given
that the external vector index returns its raw hits in native
distance-ascending relevance order. -/
theorem search_results_wellformed (vs : VectorStore)
    (hvs : ∀ k, (vs.hits k).Pairwise (fun a b => a.distance ≤ b.distance))
    (w : ℚ) (q : String) (mode : SearchMode) (limit : ℕ) :
    scoresBounded (search vs w q mode limit) ∧
      scoresNonIncreasing (search vs w q mode limit) ∧
      ranksAreIndices (search vs w q mode limit) := by
  cases mode with
  | semantic =>
    exact ⟨chroma_search_bounded (vs.hits limit), chroma_search_sorted (hvs limit),
      ranksAreIndices_withRanks _⟩
  | bm25 =>
    exact ⟨bm25_search_bounded vs q limit, bm25_search_sorted vs q limit,
      bm25_search_ranks vs q limit⟩
  | hybrid =>
    refine ⟨hybrid_search_bounded vs q limit (le_max_left 0 _)
        (max_le (by norm_num) (min_le_left 1 w)),
      hybrid_search_sorted vs _ q limit, ranksAreIndices_withRanks _⟩

/-- Claim C1, witness: a concrete one-document store (with trivially
distance-ascending responses) instantiated in hybrid mode. -/
theorem search_results_wellformed_witness :
    scoresBounded (search vs1 (95 / 100) "alpha" SearchMode.hybrid 5) ∧
      scoresNonIncreasing (search vs1 (95 / 100) "alpha" SearchMode.hybrid 5) ∧
      ranksAreIndices (search vs1 (95 / 100) "alpha" SearchMode.hybrid 5) :=
  search_results_wellformed vs1
    (fun k => List.Pairwise.sublist (List.take_sublist k [hitA])
      (List.pairwise_singleton _ hitA))
    (95 / 100) "alpha" SearchMode.hybrid 5

/-- Claim C2: every document returned by hybrid search carries the score
`hybrid_weight × semantic_score + (1 − hybrid_weight) × keyword_score` of
its `doc_scores` entry, whose side scores either come from the respective
candidate pool or are the `0.0` contributed for a pool the document is
absent from; and for `hybrid_weight ∈ (0,1)` the hybrid score lies between
the two side scores (weighted-average identity). -/
theorem hybrid_score_weighted_average (vs : VectorStore) (w : ℚ) (q : String)
    (limit : ℕ) :
    ∀ r ∈ hybrid_search vs w q limit,
      ∃ e ∈ combineScores (semantic_search vs (limit * 2))
          (bm25_search vs q (limit * 2)),
        r.document = e.2.1 ∧
        r.score = w * e.2.2.1 + (1 - w) * e.2.2.2 ∧
        scoreFromPool (semantic_search vs (limit * 2)) e.1 e.2.2.1 ∧
        scoreFromPool (bm25_search vs q (limit * 2)) e.1 e.2.2.2 ∧
        ((∀ s ∈ semantic_search vs (limit * 2), s.document.id ≠ e.1) →
          e.2.2.1 = 0) ∧
        ((∀ s ∈ bm25_search vs q (limit * 2), s.document.id ≠ e.1) →
          e.2.2.2 = 0) ∧
        (0 < w → w < 1 →
          min e.2.2.1 e.2.2.2 ≤ r.score ∧ r.score ≤ max e.2.2.1 e.2.2.2) := by
  intro r hr
  obtain ⟨p, hp, hd, hs⟩ := withRanksFrom_mem hr
  have hp3 : p ∈ hybridEntries vs w q limit :=
    mem_sortByScoreDesc (List.mem_of_mem_take hp)
  obtain ⟨e, he, rfl⟩ := List.mem_map.mp hp3
  obtain ⟨hsem, hkw⟩ := combineScores_spec _ _ e he
  refine ⟨e, he, hd, by rw [hs], hsem, hkw, ?_, ?_, ?_⟩
  · intro habs
    rcases hsem with ⟨s, hsm, hid, _⟩ | h0
    · exact absurd hid (habs s hsm)
    · exact h0
  · intro habs
    rcases hkw with ⟨s, hsm, hid, _⟩ | h0
    · exact absurd hid (habs s hsm)
    · exact h0
  · intro hw0 hw1
    rw [hs]
    dsimp only
    constructor
    · nlinarith [min_le_left e.2.2.1 e.2.2.2, min_le_right e.2.2.1 e.2.2.2]
    · nlinarith [le_max_left e.2.2.1 e.2.2.2, le_max_right e.2.2.1 e.2.2.2]

/-- Evaluation of the semantic pool of the one-document store: distance
`1/2` converts to similarity `3/4`. -/
theorem semantic_search_eval_vs1 :
    semantic_search vs1 (1 * 2) = [SearchResult.mk docA (3 / 4) 0] := by
  simp [semantic_search, VectorStore.search, chroma_search, vs1, hitA, docA,
    withRanks, withRanksFrom, clamp01]
  norm_num

/-- Evaluation of the keyword pool of the one-document store for query
`"alpha"`: one occurrence over ten characters scores `1/10`. -/
theorem bm25_search_eval_vs1 :
    bm25_search vs1 "alpha" (1 * 2) = [SearchResult.mk docA (1 / 10) 0] := by
  simp [bm25_search, bm25Scored, semantic_search, VectorStore.search, chroma_search,
    vs1, hitA, docA, withRanks, withRanksFrom, clamp01, sortByScoreDesc,
    keywordScore, pySplitWs, splitWsAux, pyLower, pyCount, countOccGo, pyIsSpace]
  have h10 : ("alpha beta".length : ℕ) = 10 := rfl
  rw [h10]
  norm_num [min_def, max_def]

/-- Evaluation of the hybrid search on the one-document store with weight
`1/2`: `1/2 × 3/4 + 1/2 × 1/10 = 17/40`. -/
theorem hybrid_search_eval_vs1 :
    hybrid_search vs1 (1 / 2) "alpha" 1 = [SearchResult.mk docA (17 / 40) 0] := by
  rw [hybrid_search, hybridEntries, semantic_search_eval_vs1, bm25_search_eval_vs1]
  simp [combineScores, dictGet, dictSet, sortByScoreDesc, withRanks,
    withRanksFrom, docA]
  norm_num

/-- Claim C2, witness: the single hybrid result for the one-document store
with `hybrid_weight = 1/2` and query `"alpha"` (semantic side `3/4`,
keyword side `1/10`, hybrid score `17/40`). -/
theorem hybrid_score_weighted_average_witness :
    ∃ e ∈ combineScores (semantic_search vs1 (1 * 2))
        (bm25_search vs1 "alpha" (1 * 2)),
      (SearchResult.mk docA (17 / 40) 0).document = e.2.1 ∧
      (SearchResult.mk docA (17 / 40) 0).score
        = (1 / 2 : ℚ) * e.2.2.1 + (1 - 1 / 2) * e.2.2.2 ∧
      scoreFromPool (semantic_search vs1 (1 * 2)) e.1 e.2.2.1 ∧
      scoreFromPool (bm25_search vs1 "alpha" (1 * 2)) e.1 e.2.2.2 ∧
      ((∀ s ∈ semantic_search vs1 (1 * 2), s.document.id ≠ e.1) →
        e.2.2.1 = 0) ∧
      ((∀ s ∈ bm25_search vs1 "alpha" (1 * 2), s.document.id ≠ e.1) →
        e.2.2.2 = 0) ∧
      ((0 : ℚ) < 1 / 2 → (1 / 2 : ℚ) < 1 →
        min e.2.2.1 e.2.2.2 ≤ (SearchResult.mk docA (17 / 40) 0).score ∧
          (SearchResult.mk docA (17 / 40) 0).score ≤ max e.2.2.1 e.2.2.2) :=
  hybrid_score_weighted_average vs1 (1 / 2) "alpha" 1
    (SearchResult.mk docA (17 / 40) 0)
    (by rw [hybrid_search_eval_vs1]; exact List.mem_singleton.mpr rfl)

/-- Claim C3: contrary to the failure semantics of the spec,
`SearchEngineAdapter.search` performs no query or limit validation in any
mode — an empty query and a non-positive limit return ordinary (sometimes
empty, sometimes non-empty) result lists instead of failing with
`EmptyQuery`/`InvalidParameter`, although the `SearchEnginePort` docstring
promises a `ValueError` for exactly these inputs. -/
theorem search_no_validation :
    search vs1 (95 / 100) "" SearchMode.semantic 5
        = [SearchResult.mk docA (3 / 4) 0] ∧
      search vs1 (95 / 100) "" SearchMode.bm25 5 = [SearchResult.mk docA 0 0] ∧
      search vs0 (95 / 100) "" SearchMode.hybrid 5 = [] ∧
      search vs1 (95 / 100) "q" SearchMode.semantic 0 = [] ∧
      search vs1 (95 / 100) "q" SearchMode.bm25 0 = [] ∧
      search vs1 (95 / 100) "q" SearchMode.hybrid 0 = [] := by
  refine ⟨?_, ?_, ?_, ?_, ?_, ?_⟩
  · show semantic_search vs1 5 = [SearchResult.mk docA (3 / 4) 0]
    simp [semantic_search, VectorStore.search, chroma_search, vs1, hitA, docA,
      withRanks, withRanksFrom, clamp01]
    norm_num
  · show bm25_search vs1 "" 5 = [SearchResult.mk docA 0 0]
    simp [bm25_search, bm25Scored, semantic_search, VectorStore.search,
      chroma_search, vs1, hitA, docA, withRanks, withRanksFrom, clamp01,
      sortByScoreDesc, keywordScore, pySplitWs, splitWsAux, pyLower, pyCount,
      countOccGo, pyIsSpace]
  · show hybrid_search vs0 (mkHybridWeight (95 / 100)) "" 5 = []
    rfl
  · rfl
  · rfl
  · rfl

/-- The de-duplication pass yields a sublist of its input. -/
theorem pyDedupGo_sublist : ∀ (l seen : List String),
    List.Sublist (pyDedupGo seen l) l := by
  intro l
  induction l with
  | nil => intro seen; exact List.Sublist.refl []
  | cons t ts ih =>
    intro seen
    rw [pyDedupGo]
    by_cases h : t ∈ seen
    · rw [if_pos h]
      exact (ih seen).cons t
    · rw [if_neg h]
      exact (ih (t :: seen)).cons₂ t

/-- Membership after de-duplication: exactly the input terms not already
seen. -/
theorem pyDedupGo_mem : ∀ (l seen : List String) (x : String),
    x ∈ pyDedupGo seen l ↔ x ∈ l ∧ x ∉ seen := by
  intro l
  induction l with
  | nil => intro seen x; simp [pyDedupGo]
  | cons t ts ih =>
    intro seen x
    rw [pyDedupGo]
    by_cases h : t ∈ seen
    · rw [if_pos h, ih]
      constructor
      · rintro ⟨hx, hns⟩
        exact ⟨List.mem_cons_of_mem t hx, hns⟩
      · rintro ⟨hx, hns⟩
        rcases List.mem_cons.mp hx with rfl | hx2
        · exact absurd h hns
        · exact ⟨hx2, hns⟩
    · rw [if_neg h]
      constructor
      · intro hx
        rcases List.mem_cons.mp hx with rfl | hx2
        · exact ⟨List.mem_cons_self x ts, h⟩
        · obtain ⟨h1, h2⟩ := (ih (t :: seen) x).mp hx2
          exact ⟨List.mem_cons_of_mem t h1, fun hs => h2 (List.mem_cons_of_mem t hs)⟩
      · rintro ⟨hx, hns⟩
        rcases List.mem_cons.mp hx with rfl | hx2
        · exact List.mem_cons_self x _
        · by_cases hxt : x = t
          · subst hxt
            exact List.mem_cons_self x _
          · exact List.mem_cons_of_mem t
              ((ih (t :: seen) x).mpr ⟨hx2, fun hs =>
                (List.mem_cons.mp hs).elim hxt hns⟩)

/-- The de-duplication pass removes all duplicates. -/
theorem pyDedupGo_nodup : ∀ (l seen : List String), (pyDedupGo seen l).Nodup := by
  intro l
  induction l with
  | nil => intro seen; exact List.nodup_nil
  | cons t ts ih =>
    intro seen
    rw [pyDedupGo]
    by_cases h : t ∈ seen
    · rw [if_pos h]
      exact ih seen
    · rw [if_neg h]
      refine List.nodup_cons.mpr ⟨?_, ih (t :: seen)⟩
      intro hmem
      exact ((pyDedupGo_mem ts (t :: seen) t).mp hmem).2 (List.mem_cons_self t seen)

/-- The de-duplication pass keeps first occurrences in first-seen order:
within its output, earlier entries occur earlier in the input. -/
theorem pyDedupGo_pairwise_indexOf : ∀ (l seen : List String),
    (pyDedupGo seen l).Pairwise (fun a b => l.indexOf a < l.indexOf b) := by
  intro l
  induction l with
  | nil => intro seen; exact List.Pairwise.nil
  | cons t ts ih =>
    intro seen
    rw [pyDedupGo]
    by_cases h : t ∈ seen
    · rw [if_pos h]
      refine List.Pairwise.imp_of_mem ?_ (ih seen)
      intro a b ha hb hab
      have hat : t ≠ a := fun he =>
        ((pyDedupGo_mem ts seen a).mp ha).2 (he ▸ h)
      have hbt : t ≠ b := fun he =>
        ((pyDedupGo_mem ts seen b).mp hb).2 (he ▸ h)
      rw [List.indexOf_cons_ne ts hat, List.indexOf_cons_ne ts hbt]
      exact Nat.succ_lt_succ hab
    · rw [if_neg h]
      refine List.Pairwise.cons ?_ ?_
      · intro b hb
        have hbt : t ≠ b := fun he =>
          ((pyDedupGo_mem ts (t :: seen) b).mp hb).2 (he ▸ List.mem_cons_self t seen)
        rw [List.indexOf_cons_self, List.indexOf_cons_ne ts hbt]
        exact Nat.succ_pos _
      · refine List.Pairwise.imp_of_mem ?_ (ih (t :: seen))
        intro a b ha hb hab
        have hat : t ≠ a := fun he =>
          ((pyDedupGo_mem ts (t :: seen) a).mp ha).2 (he ▸ List.mem_cons_self t seen)
        have hbt : t ≠ b := fun he =>
          ((pyDedupGo_mem ts (t :: seen) b).mp hb).2 (he ▸ List.mem_cons_self t seen)
        rw [List.indexOf_cons_ne ts hat, List.indexOf_cons_ne ts hbt]
        exact Nat.succ_lt_succ hab

/-- The pre-dedup expansion list is always seeded with the original
query as its first element. -/
theorem rawExpanded_cons (q : String) : ∃ rest, rawExpanded q = q :: rest := by
  rw [rawExpanded]
  have key : ∀ (l : List (String × List String)) (init : List String),
      ∃ suffix, l.foldl
        (fun acc kv =>
          if strContains (pyLower q) kv.1.toList then
            acc ++ kv.2.filter (fun s => s.toList ≠ pyLower q)
          else acc)
        init = init ++ suffix := by
    intro l
    induction l with
    | nil => intro init; exact ⟨[], by simp⟩
    | cons kv rest ih =>
      intro init
      simp only [List.foldl_cons]
      by_cases hc : strContains (pyLower q) kv.1.toList
      · obtain ⟨suffix, hs⟩ :=
          ih (init ++ kv.2.filter (fun s => s.toList ≠ pyLower q))
        exact ⟨_, by rw [if_pos hc, hs, List.append_assoc]⟩
      · obtain ⟨suffix, hs⟩ := ih init
        exact ⟨suffix, by rw [if_neg hc, hs]⟩
  obtain ⟨suffix, hs⟩ := key expansions [q]
  exact ⟨suffix, by rw [hs]; rfl⟩

/-- When no expansion key occurs in the lower-cased query, the pre-dedup
list is just the original query. -/
theorem rawExpanded_of_no_match {q : String}
    (h : ∀ kv ∈ expansions, strContains (pyLower q) kv.1.toList = false) :
    rawExpanded q = [q] := by
  rw [rawExpanded]
  have key : ∀ (l : List (String × List String)) (init : List String),
      (∀ kv ∈ l, strContains (pyLower q) kv.1.toList = false) →
      l.foldl
        (fun acc kv =>
          if strContains (pyLower q) kv.1.toList then
            acc ++ kv.2.filter (fun s => s.toList ≠ pyLower q)
          else acc)
        init = init := by
    intro l
    induction l with
    | nil => intro init _; rfl
    | cons kv rest ih =>
      intro init hall
      simp only [List.foldl_cons]
      have hkv := hall kv (List.mem_cons_self kv rest)
      rw [if_neg (by rw [hkv]; simp)]
      exact ih init (fun x hx => hall x (List.mem_cons_of_mem kv hx))
  exact key expansions [q] h

/-- Claim C9: for every non-empty query, `expand_query` returns the
original query unchanged together with a duplicate-free expansion list
that starts with the original query, preserves first-seen order (entries
are ordered by their first occurrence in the pre-dedup list and are
exactly its members), and collapses to `[original]` when no trigger term
of the static table occurs in the lower-cased query; in particular
`expand_query("python tutorial")` starts with `"python tutorial"` and
includes `"py"` and `"programming"` without duplicating the original. -/
theorem expand_query_spec :
    (∀ q : String, q ≠ "" →
      (expand_query q).original = q ∧
      (expand_query q).expanded.Nodup ∧
      (expand_query q).expanded.head? = some q ∧
      (expand_query q).expanded.Pairwise
        (fun a b => (rawExpanded q).indexOf a < (rawExpanded q).indexOf b) ∧
      (∀ x, x ∈ (expand_query q).expanded ↔ x ∈ rawExpanded q) ∧
      ((∀ kv ∈ expansions, strContains (pyLower q) kv.1.toList = false) →
        (expand_query q).expanded = [q])) ∧
    ((expand_query "python tutorial").expanded.head? = some "python tutorial" ∧
      "py" ∈ (expand_query "python tutorial").expanded ∧
      "programming" ∈ (expand_query "python tutorial").expanded ∧
      (expand_query "python tutorial").expanded.count "python tutorial" = 1) := by
  constructor
  · intro q _
    refine ⟨rfl, pyDedupGo_nodup _ _, ?_, pyDedupGo_pairwise_indexOf _ _, ?_, ?_⟩
    · obtain ⟨rest, hraw⟩ := rawExpanded_cons q
      show (pyDedup (rawExpanded q)).head? = some q
      rw [hraw, pyDedup, pyDedupGo]
      simp
    · intro x
      show x ∈ pyDedup (rawExpanded q) ↔ _
      rw [pyDedup, pyDedupGo_mem]
      simp
    · intro hnm
      show pyDedup (rawExpanded q) = [q]
      rw [rawExpanded_of_no_match hnm]
      rfl
  · refine ⟨?_, ?_, ?_, ?_⟩ <;> decide

/-- Claim C9, witness: the general part instantiated at the scenario query
`"python tutorial"`. -/
theorem expand_query_spec_witness :
    (expand_query "python tutorial").original = "python tutorial" ∧
      (expand_query "python tutorial").expanded.Nodup :=
  ⟨(expand_query_spec.1 "python tutorial" (by decide)).1,
   (expand_query_spec.1 "python tutorial" (by decide)).2.1⟩

/-- Claim C6, witness: a three-source run in which only `"b.md"` fails
still commits the embedded chunks of `"a.md"` and `"c.md"`, counts one
failed document, and records the failure pair. -/
theorem index_documents_partial_failure_witness :
    (index_documents embed1 (fun _ => true) 2
          ([srcA] ++ Source.mk "b.md" (.error "boom") :: [srcC])).store
        = (([srcA] ++ [srcC]).map Source.okDocs).flatten.map (embedDoc embed1) ∧
      (index_documents embed1 (fun _ => true) 2
          ([srcA] ++ Source.mk "b.md" (.error "boom")
            :: [srcC])).tracker.failed_documents = 1 ∧
      (index_documents embed1 (fun _ => true) 2
          ([srcA] ++ Source.mk "b.md" (.error "boom")
            :: [srcC])).tracker.failed_files = [("b.md", "boom")] :=
  index_documents_partial_failure embed1 (fun _ => true) 2 [srcA] [srcC]
    "b.md" "boom" (fun _ => rfl) (by decide) (by decide)

end Theorems

end Memoria
